import Mathlib

/-!
Verification development for the entity-resolution core of the repository:
candidate scoring (`score_pairs`), 1:1 matching (`greedy_matching`,
`hungarian_matching`, `compare_matching_algorithms`) and evaluation
(`compute_metrics`, `compute_metrics_at_k`, `threshold_analysis`).

The Python dataframes are embedded as lists of records; float scores are
embedded as rationals; `scipy.optimize.linear_sum_assignment` (external
library code) is embedded by its contract: a minimum-total-cost assignment
of size `min(#rows, #cols)`, chosen by exhaustive search.  Fallible code
(the unguarded division in `compute_metrics`' coverage computation) is
embedded with `Option`.
-/

namespace EntityResolution

/-- A scored candidate pair: one row of the `pairs_df` dataframe consumed by
the matching algorithms (`sponsor_name`, `ticker`, `confidence` columns). -/
structure Pair where
  left : String
  right : String
  conf : ℚ
deriving DecidableEq, Repr

/-- Descending-confidence comparison used by `df.sort(score_key, descending=True)`. -/
def confGE (a b : Pair) : Prop := b.conf ≤ a.conf

instance : DecidableRel confGE := fun a b => inferInstanceAs (Decidable (b.conf ≤ a.conf))

/-- `df.sort(score_key, descending=True)`. -/
def sortByConfDesc (l : List Pair) : List Pair := List.insertionSort confGE l

/-- The `min_score` filter applied by both matchers: `pairs_df.filter(pl.col(score_key) >= min_score)`. -/
def filterPairs (pairs : List Pair) (min_score : ℚ) : List Pair :=
  pairs.filter fun p => min_score ≤ p.conf

/-- The selection loop of `greedy_matching`: walk the sorted pairs, keeping a
pair only when neither its left nor its right entity is already matched. -/
def greedyGo : List Pair → List String → List String → List Pair
  | [], _, _ => []
  | p :: rest, matched_left, matched_right =>
    if p.left ∈ matched_left ∨ p.right ∈ matched_right then
      greedyGo rest matched_left matched_right
    else
      p :: greedyGo rest (p.left :: matched_left) (p.right :: matched_right)

/-- `greedy_matching`: filter by `min_score`, sort by confidence descending,
then select greedily. -/
def greedy_matching (pairs : List Pair) (min_score : ℚ) : List Pair :=
  let df := filterPairs pairs min_score
  if df.isEmpty then df
  else greedyGo (sortByConfDesc df) [] []

/-- Ascending sort on strings, as in `df[key].unique().sort()`. -/
def strLE (a b : String) : Prop := a ≤ b

instance : DecidableRel strLE := fun a b => inferInstanceAs (Decidable (a ≤ b))

/-- `df[key].unique().sort().to_list()`: the distinct values, sorted ascending. -/
def uniqueSorted (l : List String) : List String := List.insertionSort strLE l.dedup

/-- The `pair_lookup` dict of `hungarian_matching`: keyed on
`(row[left_key], row[right_key])`; a later row overwrites an earlier one,
so the lookup returns the last matching row. -/
def pairLookup (df : List Pair) (l r : String) : Option Pair :=
  df.reverse.find? fun p => p.left = l ∧ p.right = r

/-- One entry of the cost matrix: `-score` for a real candidate edge,
`1e9` for a (left, right) combination that was never generated. -/
def costOf (df : List Pair) (l r : String) : ℚ :=
  match pairLookup df l r with
  | some row => -row.conf
  | none => 1000000000

/-- All ways to pick one element out of a list, paired with the remaining
elements. -/
def picks {α : Type} : List α → List (α × List α)
  | [] => []
  | x :: xs => (x, xs) :: (picks xs).map fun pr => (pr.1, x :: pr.2)

/-- All assignments pairing every element of `ls` with a distinct element of
`rs` (defined when `ls.length ≤ rs.length`; empty otherwise). -/
def injAssign : List String → List String → List (List (String × String))
  | [], _ => [[]]
  | l :: ls, rs =>
    ((picks rs).map fun pr => (injAssign ls pr.2).map fun a => (l, pr.1) :: a).flatten

/-- Total cost of an assignment under a cost function. -/
def assignmentCost (cost : String → String → ℚ) (a : List (String × String)) : ℚ :=
  (a.map fun lr => cost lr.1 lr.2).sum

/-- First element of minimal value under `f` (the deterministic tie-break of
the embedded assignment solver). -/
def chooseMinBy {α : Type} (f : α → ℚ) : List α → Option α
  | [] => none
  | x :: xs =>
    match chooseMinBy f xs with
    | none => some x
    | some y => if f x ≤ f y then some x else some y

/-- Contract of `scipy.optimize.linear_sum_assignment` on the cost matrix
indexed by the two entity lists: an assignment of size
`min(ls.length, rs.length)` using each row and each column at most once and
minimizing the total cost. -/
def linearSumAssignment (cost : String → String → ℚ) (ls rs : List String) :
    List (String × String) :=
  if ls.length ≤ rs.length then
    (chooseMinBy (assignmentCost cost) (injAssign ls rs)).getD []
  else
    (((chooseMinBy (assignmentCost fun r l => cost l r) (injAssign rs ls)).getD []).map
      fun pr => (pr.2, pr.1))

/-- One step of the post-solve extraction loop of `hungarian_matching`: keep
an assigned combination only if it is a real candidate
(`pair_key in pair_lookup`) whose score meets the threshold. -/
def postFilterFun (df : List Pair) (min_score : ℚ) (lr : String × String) : Option Pair :=
  match pairLookup df lr.1 lr.2 with
  | some row => if min_score ≤ row.conf then some row else none
  | none => none

/-- The post-solve extraction loop of `hungarian_matching`. -/
def postFilter (df : List Pair) (min_score : ℚ) (assignment : List (String × String)) :
    List Pair :=
  assignment.filterMap (postFilterFun df min_score)

/-- `hungarian_matching`: filter, build the penalty-completed cost matrix over
the distinct left/right entities of the filtered set, solve the assignment
problem, post-filter to real candidates, and sort by score descending. -/
def hungarian_matching (pairs : List Pair) (min_score : ℚ) : List Pair :=
  let df := filterPairs pairs min_score
  if df.isEmpty then df
  else
    let left_entities := uniqueSorted (df.map Pair.left)
    let right_entities := uniqueSorted (df.map Pair.right)
    let assignment := linearSumAssignment (costOf df) left_entities right_entities
    let selected := postFilter df min_score assignment
    if selected.isEmpty then [] else sortByConfDesc selected

/-- `result[score_key].sum()`. -/
def totalScore (l : List Pair) : ℚ := (l.map Pair.conf).sum

/-- The dictionary returned by `compare_matching_algorithms`. -/
structure ComparisonResult where
  greedy_matches : Nat
  greedy_total_score : ℚ
  greedy_avg_score : ℚ
  hungarian_matches : Nat
  hungarian_total_score : ℚ
  hungarian_avg_score : ℚ
  improvement : ℚ
  improvement_pct : ℚ
  different_pairs : Nat
deriving DecidableEq, Repr

/-- `(left, right)` keys of a match result. -/
def matchKeys (l : List Pair) : List (String × String) :=
  l.map fun p => (p.left, p.right)

/-- `compare_matching_algorithms`: run both matchers and compare totals,
averages, improvement and the symmetric difference of chosen pairs. -/
def compare_matching_algorithms (pairs : List Pair) (min_score : ℚ) : ComparisonResult :=
  let greedy_result := greedy_matching pairs min_score
  let hungarian_result := hungarian_matching pairs min_score
  let greedy_total := if 0 < greedy_result.length then totalScore greedy_result else 0
  let greedy_avg :=
    if 0 < greedy_result.length then totalScore greedy_result / greedy_result.length else 0
  let hungarian_total := if 0 < hungarian_result.length then totalScore hungarian_result else 0
  let hungarian_avg :=
    if 0 < hungarian_result.length then totalScore hungarian_result / hungarian_result.length
    else 0
  let improvement := hungarian_total - greedy_total
  let gk := (matchKeys greedy_result).dedup
  let hk := (matchKeys hungarian_result).dedup
  { greedy_matches := greedy_result.length
    greedy_total_score := greedy_total
    greedy_avg_score := greedy_avg
    hungarian_matches := hungarian_result.length
    hungarian_total_score := hungarian_total
    hungarian_avg_score := hungarian_avg
    improvement := improvement
    improvement_pct := if 0 < greedy_total then improvement / greedy_total * 100 else 0
    different_pairs :=
      (gk.filter fun k => k ∉ hk).length + (hk.filter fun k => k ∉ gk).length }

/-! ## Similarity scorer (`score_pairs` in `main.py`) -/

/-- Status values from `src/pipelines/entity_match/config.py`. -/
inductive Status where
  | approved
  | pending
  | rejected
deriving DecidableEq, Repr

/-- `CONFIDENCE_AUTO_APPROVE = 0.85` (high confidence, auto-approve). -/
def CONFIDENCE_AUTO_APPROVE : ℚ := 0.85

/-- `CONFIDENCE_AUTO_REJECT = 0.65` (low confidence, auto-reject). -/
def CONFIDENCE_AUTO_REJECT : ℚ := 0.65

/-- The status classification applied by `score_pairs` to the raw similarity. -/
def classify (similarity : ℚ) : Status :=
  if CONFIDENCE_AUTO_APPROVE ≤ similarity then Status.approved
  else if similarity < CONFIDENCE_AUTO_REJECT then Status.rejected
  else Status.pending

/-- Dot product of two embedding vectors, `np.dot(left_emb, right_emb.T)`. -/
def dot (u v : List ℚ) : ℚ := (List.zipWith (· * ·) u v).sum

/-- Round half to even at integer precision (Python's `round`). -/
def roundHalfEven (x : ℚ) : ℤ :=
  let f := ⌊x⌋
  let frac := x - f
  if frac < 1/2 then f
  else if 1/2 < frac then f + 1
  else if f % 2 = 0 then f else f + 1

/-- Python's `round(x, 4)`: round to 4 decimal digits, ties to even. -/
def round4 (x : ℚ) : ℚ := (roundHalfEven (x * 10000) : ℚ) / 10000

/-- One output row of `score_pairs` (the columns the claims are about). -/
structure ScoredRow where
  sponsor_name : String
  ticker : String
  confidence : ℚ
  status : Status
deriving DecidableEq, Repr

/-- The row built by `score_pairs` for one candidate pair: the stored
`confidence` is the similarity rounded to 4 digits, while `status` is
classified from the raw (unrounded) similarity. -/
def scoreRow (l r : String) (similarity : ℚ) : ScoredRow :=
  { sponsor_name := l
    ticker := r
    confidence := round4 similarity
    status := classify similarity }

/-- Descending-confidence comparison for scored rows (`df.sort("confidence", descending=True)`). -/
def rowConfGE (a b : ScoredRow) : Prop := b.confidence ≤ a.confidence

instance : DecidableRel rowConfGE :=
  fun a b => inferInstanceAs (Decidable (b.confidence ≤ a.confidence))

/-- `score_pairs`: score each candidate pair by the dot product of the two
injected embedding vectors (`leftVec` maps a sponsor name to its embedding;
`rightVec` maps a ticker to the embedding of that ticker's name text), then
sort by confidence descending. -/
def score_pairs (leftVec rightVec : String → List ℚ) (candidates : List (String × String)) :
    List ScoredRow :=
  List.insertionSort rowConfGE
    (candidates.map fun lr => scoreRow lr.1 lr.2 (dot (leftVec lr.1) (rightVec lr.2)))

/-! ## Evaluator (`evaluation.py`) -/

/-- One prediction row (`sponsor_name`, `ticker`, `confidence`). -/
structure PredRow where
  sponsor_name : String
  ticker : String
  confidence : ℚ
deriving DecidableEq, Repr

/-- One ground-truth row (`sponsor_name`, `ticker`, `label`). -/
structure GTRow where
  sponsor_name : String
  ticker : String
  label : String
deriving DecidableEq, Repr

/-- The metrics container returned by `compute_metrics`. -/
structure EvaluationMetrics where
  precision : ℚ
  «recall» : ℚ
  f1 : ℚ
  true_positives : Nat
  false_positives : Nat
  false_negatives : Nat
  true_negatives : Nat
  coverage : ℚ
  total_predictions : Nat
  total_ground_truth : Nat
deriving DecidableEq, Repr

/-- `predictions.filter(pl.col("confidence") >= min_confidence)`. -/
def filterPreds (predictions : List PredRow) (min_confidence : ℚ) : List PredRow :=
  predictions.filter fun p => min_confidence ≤ p.confidence

/-- Ground-truth rows joining with a prediction on `(sponsor_name, ticker)`. -/
def gtMatches (ground_truth : List GTRow) (p : PredRow) : List GTRow :=
  ground_truth.filter fun g => g.sponsor_name = p.sponsor_name ∧ g.ticker = p.ticker

/-- The `label` column of the left join of filtered predictions with ground
truth: each prediction contributes one `none` when unlabeled, otherwise one
entry per matching ground-truth row. -/
def joinedLabels (preds : List PredRow) (ground_truth : List GTRow) : List (Option String) :=
  (preds.map fun p =>
    let ms := gtMatches ground_truth p
    if ms.isEmpty then [Option.none] else ms.map fun g => some g.label).flatten

/-- `tp`: joined rows labeled `"correct"`. -/
def tpCount (predictions : List PredRow) (ground_truth : List GTRow) (t : ℚ) : Nat :=
  (joinedLabels (filterPreds predictions t) ground_truth).countP (· == some "correct")

/-- `fp`: joined rows labeled `"incorrect"` plus joined rows with no label. -/
def fpCount (predictions : List PredRow) (ground_truth : List GTRow) (t : ℚ) : Nat :=
  (joinedLabels (filterPreds predictions t) ground_truth).countP (· == some "incorrect") +
    (joinedLabels (filterPreds predictions t) ground_truth).countP (· == Option.none)

/-- `fn`: ground-truth rows labeled `"correct"` whose key is absent from the
filtered predictions (the anti-join). -/
def fnCount (predictions : List PredRow) (ground_truth : List GTRow) (t : ℚ) : Nat :=
  ((ground_truth.filter fun g => g.label = "correct").filter fun g =>
    !((filterPreds predictions t).any fun p =>
      p.sponsor_name = g.sponsor_name ∧ p.ticker = g.ticker)).length

/-- `precision = tp / (tp + fp) if (tp + fp) > 0 else 0.0`. -/
def precisionRat (predictions : List PredRow) (ground_truth : List GTRow) (t : ℚ) : ℚ :=
  let tp := tpCount predictions ground_truth t
  let fp := fpCount predictions ground_truth t
  if 0 < tp + fp then (tp : ℚ) / ((tp : ℚ) + (fp : ℚ)) else 0

/-- `recall = tp / (tp + fn) if (tp + fn) > 0 else 0.0`. -/
def recallRat (predictions : List PredRow) (ground_truth : List GTRow) (t : ℚ) : ℚ :=
  let tp := tpCount predictions ground_truth t
  let fn := fnCount predictions ground_truth t
  if 0 < tp + fn then (tp : ℚ) / ((tp : ℚ) + (fn : ℚ)) else 0

/-- `f1 = 2 * (precision * recall) / (precision + recall)` with zero guard. -/
def f1Rat (predictions : List PredRow) (ground_truth : List GTRow) (t : ℚ) : ℚ :=
  let prc := precisionRat predictions ground_truth t
  let rcl := recallRat predictions ground_truth t
  if 0 < prc + rcl then 2 * (prc * rcl) / (prc + rcl) else 0

/-- `ground_truth["sponsor_name"].unique()`. -/
def gtSponsors (ground_truth : List GTRow) : List String :=
  (ground_truth.map GTRow.sponsor_name).dedup

/-- `compute_metrics`: the coverage computation divides by the number of
distinct ground-truth sponsors with no zero guard, so the embedding returns
`none` (a `ZeroDivisionError`) exactly when that count is zero; every other
division is guarded. -/
def compute_metrics (predictions : List PredRow) (ground_truth : List GTRow)
    (min_confidence : ℚ) : Option EvaluationMetrics :=
  let preds := filterPreds predictions min_confidence
  let sponsors_with_gt := gtSponsors ground_truth
  let sponsors_with_pred := (preds.map PredRow.sponsor_name).dedup
  if sponsors_with_gt.length = 0 then none
  else
    some
      { precision := precisionRat predictions ground_truth min_confidence
        «recall» := recallRat predictions ground_truth min_confidence
        f1 := f1Rat predictions ground_truth min_confidence
        true_positives := tpCount predictions ground_truth min_confidence
        false_positives := fpCount predictions ground_truth min_confidence
        false_negatives := fnCount predictions ground_truth min_confidence
        true_negatives := 0
        coverage :=
          ((sponsors_with_pred.filter fun s => s ∈ sponsors_with_gt).length : ℚ) /
            (sponsors_with_gt.length : ℚ)
        total_predictions := preds.length
        total_ground_truth := ground_truth.length }

/-- Descending-confidence comparison for prediction rows. -/
def predConfGE (a b : PredRow) : Prop := b.confidence ≤ a.confidence

instance : DecidableRel predConfGE :=
  fun a b => inferInstanceAs (Decidable (b.confidence ≤ a.confidence))

/-- `group_by("sponsor_name").head(k)` over a sorted frame: keep the first
`k` rows of each sponsor, in order. -/
def takePerSponsor (k : Nat) : List PredRow → List (String × Nat) → List PredRow
  | [], _ => []
  | p :: rest, counts =>
    let c := ((counts.find? fun sc => sc.1 = p.sponsor_name).map Prod.snd).getD 0
    if c < k then p :: takePerSponsor k rest ((p.sponsor_name, c + 1) :: counts)
    else takePerSponsor k rest counts

/-- `compute_metrics_at_k`: truncate to the top-`k` predictions per sponsor
by confidence, then compute metrics at threshold `0`. -/
def compute_metrics_at_k (predictions : List PredRow) (ground_truth : List GTRow)
    (k : Nat) : Option EvaluationMetrics :=
  let top_k := takePerSponsor k (List.insertionSort predConfGE predictions) []
  compute_metrics top_k ground_truth 0

/-- The default threshold grid `[i / 20 for i in range(21)]`. -/
def defaultThresholds : List ℚ := (List.range 21).map fun i : ℕ => (i : ℚ) / 20

/-- One row of the `threshold_analysis` result frame. -/
structure ThresholdRow where
  threshold : ℚ
  precision : ℚ
  «recall» : ℚ
  f1 : ℚ
  true_positives : Nat
  false_positives : Nat
  false_negatives : Nat
  total_predictions : Nat
deriving DecidableEq, Repr

/-- `threshold_analysis` on the default grid: evaluates `compute_metrics` at
every threshold, so it propagates the coverage division-by-zero. -/
def threshold_analysis (predictions : List PredRow) (ground_truth : List GTRow) :
    Option (List ThresholdRow) :=
  defaultThresholds.mapM fun t =>
    (compute_metrics predictions ground_truth t).map fun m =>
      { threshold := t
        precision := m.precision
        «recall» := m.recall
        f1 := m.f1
        true_positives := m.true_positives
        false_positives := m.false_positives
        false_negatives := m.false_negatives
        total_predictions := m.total_predictions }

/-! ## Concrete inputs used by the worked examples and counterexamples -/

/-- The one-to-one (partial injection) property of a match result. -/
def OneToOne (l : List Pair) : Prop :=
  l.Pairwise fun a b => a.left ≠ b.left ∧ a.right ≠ b.right

/-- The canonical worked example: A–X=0.90, A–Y=0.85, B–X=0.88, B–Y=0.70. -/
def exPairs : List Pair :=
  [⟨"A", "X", 0.90⟩, ⟨"A", "Y", 0.85⟩, ⟨"B", "X", 0.88⟩, ⟨"B", "Y", 0.70⟩]

/-- A sparse candidate set on which the penalty-completed assignment solver
is forced away from the highest-value edge. -/
def sparsePairs : List Pair := [⟨"A", "X", 0.9⟩, ⟨"A", "Y", 0.1⟩, ⟨"B", "X", 0.2⟩]

/-- Predictions of the worked evaluation example. -/
def evalPreds : List PredRow := [⟨"A", "X", 0.90⟩, ⟨"B", "Y", 0.80⟩, ⟨"E", "W", 0.60⟩]

/-- Ground truth of the worked evaluation example. -/
def evalGT : List GTRow := [⟨"A", "X", "correct"⟩, ⟨"B", "Y", "correct"⟩, ⟨"C", "Z", "incorrect"⟩]

/-- Left embedding of the status counterexample: every sponsor text maps to
the one-dimensional vector `[1]`. -/
def cexLeftVec : String → List ℚ := fun _ => [1]

/-- Right embedding of the status counterexample: `"X"` maps to `[0.85]`,
everything else to `[0.84996]` (both round to a stored confidence of 0.85). -/
def cexRightVec : String → List ℚ := fun s => if s = "X" then [0.85] else [0.84996]

/-- Left embedding of the confidence-range counterexample: unit vector `[1, 0]`. -/
def unitLeftVec : String → List ℚ := fun _ => [1, 0]

/-- Right embedding of the confidence-range counterexample: unit vector `[-1, 0]`. -/
def unitRightVec : String → List ℚ := fun _ => [-1, 0]

/-! ## Lemmas about the greedy matcher -/

theorem greedyGo_mem_not_matched :
    ∀ (l : List Pair) (ml mr : List String) (p : Pair),
      p ∈ greedyGo l ml mr → p.left ∉ ml ∧ p.right ∉ mr := by
  intro l
  induction l with
  | nil => intro ml mr p hp; simp [greedyGo] at hp
  | cons x rest ih =>
    intro ml mr p hp
    rw [greedyGo] at hp
    split at hp
    · exact ih ml mr p hp
    · rename_i hx
      push_neg at hx
      rcases List.mem_cons.mp hp with rfl | hp'
      · exact hx
      · have h := ih _ _ p hp'
        exact ⟨fun hm => h.1 (List.mem_cons_of_mem _ hm),
               fun hm => h.2 (List.mem_cons_of_mem _ hm)⟩

theorem greedyGo_mem_sub :
    ∀ (l : List Pair) (ml mr : List String) (p : Pair), p ∈ greedyGo l ml mr → p ∈ l := by
  intro l
  induction l with
  | nil => intro ml mr p hp; simp [greedyGo] at hp
  | cons x rest ih =>
    intro ml mr p hp
    rw [greedyGo] at hp
    split at hp
    · exact List.mem_cons_of_mem _ (ih _ _ _ hp)
    · rcases List.mem_cons.mp hp with rfl | hp'
      · exact List.mem_cons_self _ _
      · exact List.mem_cons_of_mem _ (ih _ _ _ hp')

theorem greedyGo_pairwise :
    ∀ (l : List Pair) (ml mr : List String), OneToOne (greedyGo l ml mr) := by
  intro l
  induction l with
  | nil => intro ml mr; simp [greedyGo, OneToOne]
  | cons x rest ih =>
    intro ml mr
    rw [greedyGo]
    split
    · exact ih ml mr
    · refine List.Pairwise.cons ?_ (ih _ _)
      intro q hq
      have h := greedyGo_mem_not_matched _ _ _ q hq
      constructor
      · intro he; exact h.1 (he ▸ List.mem_cons_self _ _)
      · intro he; exact h.2 (he ▸ List.mem_cons_self _ _)

theorem greedyGo_maximal :
    ∀ (l : List Pair) (ml mr : List String) (p : Pair),
      p ∈ l → p ∉ greedyGo l ml mr →
      (p.left ∈ ml ∨ p.right ∈ mr) ∨
        ∃ q ∈ greedyGo l ml mr, q.left = p.left ∨ q.right = p.right := by
  intro l
  induction l with
  | nil => intro ml mr p hp; simp at hp
  | cons x rest ih =>
    intro ml mr p hp hnp
    by_cases hx : x.left ∈ ml ∨ x.right ∈ mr
    · rw [greedyGo, if_pos hx] at hnp ⊢
      rcases List.mem_cons.mp hp with rfl | hp'
      · exact Or.inl hx
      · exact ih ml mr p hp' hnp
    · rw [greedyGo, if_neg hx] at hnp ⊢
      rcases List.mem_cons.mp hp with rfl | hp'
      · exact absurd (List.mem_cons_self _ _) hnp
      · have hnp' : p ∉ greedyGo rest (x.left :: ml) (x.right :: mr) := fun h =>
          hnp (List.mem_cons_of_mem _ h)
        rcases ih _ _ p hp' hnp' with hm | ⟨q, hq, hqe⟩
        · rcases hm with hml | hmr
          · rcases List.mem_cons.mp hml with he | hml'
            · exact Or.inr ⟨x, List.mem_cons_self _ _, Or.inl he.symm⟩
            · exact Or.inl (Or.inl hml')
          · rcases List.mem_cons.mp hmr with he | hmr'
            · exact Or.inr ⟨x, List.mem_cons_self _ _, Or.inr he.symm⟩
            · exact Or.inl (Or.inr hmr')
        · exact Or.inr ⟨q, List.mem_cons_of_mem _ hq, hqe⟩

/-- All members of the greedy result come from the filtered input. -/
theorem greedy_matching_mem_filter (pairs : List Pair) (min_score : ℚ) (p : Pair) :
    p ∈ greedy_matching pairs min_score → p ∈ filterPairs pairs min_score := by
  intro hp
  rw [greedy_matching] at hp
  split at hp
  · exact hp
  · have := greedyGo_mem_sub _ _ _ _ hp
    exact (List.perm_insertionSort confGE _).mem_iff.mp this

theorem greedy_matching_one_to_one (pairs : List Pair) (min_score : ℚ) :
    OneToOne (greedy_matching pairs min_score) := by
  rw [greedy_matching]
  split
  · rename_i h
    rw [List.isEmpty_iff] at h
    rw [h]
    exact List.Pairwise.nil
  · exact greedyGo_pairwise _ _ _

/-! ## Lemmas about the Hungarian matcher -/

theorem pairLookup_some (df : List Pair) (l r : String) (p : Pair) :
    pairLookup df l r = some p → p ∈ df ∧ p.left = l ∧ p.right = r := by
  intro h
  have hm := List.mem_of_find?_eq_some h
  have hp := List.find?_some h
  simp only [decide_eq_true_eq] at hp
  exact ⟨List.mem_reverse.mp hm, hp⟩

theorem postFilterFun_some (df : List Pair) (min_score : ℚ) (lr : String × String) (p : Pair) :
    postFilterFun df min_score lr = some p →
      p ∈ df ∧ min_score ≤ p.conf ∧ p.left = lr.1 ∧ p.right = lr.2 := by
  intro h
  rw [postFilterFun] at h
  rcases hkp : pairLookup df lr.1 lr.2 with _ | row
  · rw [hkp] at h; exact absurd h (by simp)
  · rw [hkp] at h
    simp only at h
    split at h
    · rename_i hc
      simp only [Option.some.injEq] at h
      subst h
      have hps := pairLookup_some df lr.1 lr.2 _ hkp
      exact ⟨hps.1, hc, hps.2⟩
    · exact absurd h (by simp)

theorem postFilter_mem (df : List Pair) (min_score : ℚ) (a : List (String × String)) (p : Pair) :
    p ∈ postFilter df min_score a → p ∈ df ∧ min_score ≤ p.conf := by
  intro hp
  rcases List.mem_filterMap.mp hp with ⟨lr, _, hlr⟩
  have := postFilterFun_some df min_score lr p hlr
  exact ⟨this.1, this.2.1⟩

theorem picks_sub {α : Type} :
    ∀ (l : List α) (x : α) (rest : List α), (x, rest) ∈ picks l → x ∈ l ∧ rest ⊆ l := by
  intro l
  induction l with
  | nil => intro x rest h; simp [picks] at h
  | cons a as ih =>
    intro x rest h
    rw [picks] at h
    rcases List.mem_cons.mp h with he | hm
    · cases he
      exact ⟨List.mem_cons_self _ _, List.subset_cons_self _ _⟩
    · rcases List.mem_map.mp hm with ⟨pr, hpr, he⟩
      cases he
      have := ih pr.1 pr.2 hpr
      exact ⟨List.mem_cons_of_mem _ this.1,
        List.cons_subset_cons _ this.2 |>.trans (by intro y hy; exact hy)⟩

theorem picks_nodup {α : Type} :
    ∀ (l : List α), l.Nodup → ∀ (x : α) (rest : List α),
      (x, rest) ∈ picks l → x ∉ rest ∧ rest.Nodup := by
  intro l
  induction l with
  | nil => intro _ x rest h; simp [picks] at h
  | cons a as ih =>
    intro hnd x rest h
    have hand := List.nodup_cons.mp hnd
    rw [picks] at h
    rcases List.mem_cons.mp h with he | hm
    · cases he
      exact hand
    · rcases List.mem_map.mp hm with ⟨pr, hpr, he⟩
      cases he
      have hsub := picks_sub as pr.1 pr.2 hpr
      have hih := ih hand.2 pr.1 pr.2 hpr
      constructor
      · intro hmem
        rcases List.mem_cons.mp hmem with he2 | hm2
        · exact hand.1 (he2 ▸ hsub.1)
        · exact hih.1 hm2
      · exact List.nodup_cons.mpr ⟨fun hc => hand.1 (hsub.2 hc), hih.2⟩

theorem injAssign_fst :
    ∀ (ls rs : List String) (a : List (String × String)),
      a ∈ injAssign ls rs → a.map Prod.fst = ls := by
  intro ls
  induction ls with
  | nil => intro rs a h; simp [injAssign] at h; simp [h]
  | cons l ls ih =>
    intro rs a h
    rw [injAssign] at h
    rcases List.mem_flatten.mp h with ⟨L, hL, haL⟩
    rcases List.mem_map.mp hL with ⟨pr, _, he⟩
    subst he
    rcases List.mem_map.mp haL with ⟨a', ha', he⟩
    subst he
    simp [ih pr.2 a' ha']

theorem injAssign_snd_sub :
    ∀ (ls rs : List String) (a : List (String × String)),
      a ∈ injAssign ls rs → ∀ pr ∈ a, pr.2 ∈ rs := by
  intro ls
  induction ls with
  | nil => intro rs a h; simp [injAssign] at h; simp [h]
  | cons l ls ih =>
    intro rs a h
    rw [injAssign] at h
    rcases List.mem_flatten.mp h with ⟨L, hL, haL⟩
    rcases List.mem_map.mp hL with ⟨pk, hpk, he⟩
    subst he
    rcases List.mem_map.mp haL with ⟨a', ha', he⟩
    subst he
    intro pr hpr
    have hkr := picks_sub rs pk.1 pk.2 hpk
    rcases List.mem_cons.mp hpr with he2 | hm2
    · subst he2; exact hkr.1
    · exact hkr.2 (ih pk.2 a' ha' pr hm2)

theorem injAssign_snd_nodup :
    ∀ (ls rs : List String) (a : List (String × String)),
      rs.Nodup → a ∈ injAssign ls rs → (a.map Prod.snd).Nodup := by
  intro ls
  induction ls with
  | nil => intro rs a _ h; simp [injAssign] at h; simp [h]
  | cons l ls ih =>
    intro rs a hnd h
    rw [injAssign] at h
    rcases List.mem_flatten.mp h with ⟨L, hL, haL⟩
    rcases List.mem_map.mp hL with ⟨pk, hpk, he⟩
    subst he
    rcases List.mem_map.mp haL with ⟨a', ha', he⟩
    subst he
    have hknd := picks_nodup rs hnd pk.1 pk.2 hpk
    simp only [List.map_cons]
    refine List.nodup_cons.mpr ⟨?_, ih pk.2 a' hknd.2 ha'⟩
    intro hmem
    rcases List.mem_map.mp hmem with ⟨pr, hpr, he2⟩
    exact hknd.1 (he2 ▸ injAssign_snd_sub ls pk.2 a' ha' pr hpr)

theorem chooseMinBy_mem {α : Type} (f : α → ℚ) :
    ∀ (L : List α) (a : α), chooseMinBy f L = some a → a ∈ L := by
  intro L
  induction L with
  | nil => intro a h; simp [chooseMinBy] at h
  | cons x xs ih =>
    intro a h
    rw [chooseMinBy] at h
    rcases htl : chooseMinBy f xs with _ | y
    · rw [htl] at h
      simp only at h
      cases h
      exact List.mem_cons_self _ _
    · rw [htl] at h
      simp only at h
      split at h
      · cases h; exact List.mem_cons_self _ _
      · cases h; exact List.mem_cons_of_mem _ (ih _ htl)

theorem linearSumAssignment_nodup (cost : String → String → ℚ) (ls rs : List String)
    (hls : ls.Nodup) (hrs : rs.Nodup) :
    ((linearSumAssignment cost ls rs).map Prod.fst).Nodup ∧
      ((linearSumAssignment cost ls rs).map Prod.snd).Nodup := by
  rw [linearSumAssignment]
  split
  · rcases h : chooseMinBy (assignmentCost cost) (injAssign ls rs) with _ | a
    · simp
    · simp only [Option.getD_some]
      have ha := chooseMinBy_mem _ _ _ h
      exact ⟨(injAssign_fst ls rs a ha).symm ▸ hls, injAssign_snd_nodup ls rs a hrs ha⟩
  · rcases h : chooseMinBy (assignmentCost fun r l => cost l r) (injAssign rs ls) with _ | a
    · simp
    · simp only [Option.getD_some]
      have ha := chooseMinBy_mem _ _ _ h
      constructor
      · rw [List.map_map]
        have : (Prod.fst ∘ fun pr : String × String => (pr.2, pr.1)) = Prod.snd := rfl
        rw [this]
        exact injAssign_snd_nodup rs ls a hls ha
      · rw [List.map_map]
        have : (Prod.snd ∘ fun pr : String × String => (pr.2, pr.1)) = Prod.fst := rfl
        rw [this]
        exact (injAssign_fst rs ls a ha).symm ▸ hrs

theorem uniqueSorted_nodup (l : List String) : (uniqueSorted l).Nodup := by
  rw [uniqueSorted]
  exact (List.perm_insertionSort strLE l.dedup).symm.nodup (List.nodup_dedup l)

/-- C7 core: every row returned by the Hungarian matcher is a real filtered
candidate row meeting the threshold. -/
theorem hungarian_matching_mem (pairs : List Pair) (min_score : ℚ) (p : Pair) :
    p ∈ hungarian_matching pairs min_score →
      p ∈ filterPairs pairs min_score ∧ min_score ≤ p.conf := by
  intro hp
  simp only [hungarian_matching] at hp
  split at hp
  · rename_i h
    rw [List.isEmpty_iff] at h
    rw [h] at hp
    exact absurd hp (List.not_mem_nil p)
  · split at hp
    · exact absurd hp (List.not_mem_nil p)
    · have hsel := (List.perm_insertionSort confGE _).mem_iff.mp hp
      have := postFilter_mem _ _ _ _ hsel
      exact ⟨this.1, this.2⟩

theorem hungarian_matching_one_to_one (pairs : List Pair) (min_score : ℚ) :
    OneToOne (hungarian_matching pairs min_score) := by
  simp only [hungarian_matching]
  split
  · rename_i h
    rw [List.isEmpty_iff] at h
    rw [h]
    exact List.Pairwise.nil
  · split
    · exact List.Pairwise.nil
    · rename_i hne
      rw [sortByConfDesc]
      refine ((List.perm_insertionSort confGE _).pairwise_iff
        (fun h => ⟨h.1.symm, h.2.symm⟩)).mpr ?_
      set df := filterPairs pairs min_score with hdf
      have hnd := linearSumAssignment_nodup (costOf df)
        (uniqueSorted (df.map Pair.left)) (uniqueSorted (df.map Pair.right))
        (uniqueSorted_nodup _) (uniqueSorted_nodup _)
      set S := linearSumAssignment (costOf df)
        (uniqueSorted (df.map Pair.left)) (uniqueSorted (df.map Pair.right)) with hS
      have hpS : S.Pairwise fun a b : String × String => a.1 ≠ b.1 ∧ a.2 ≠ b.2 := by
        have h1 : S.Pairwise fun a b : String × String => a.1 ≠ b.1 :=
          List.pairwise_map.mp hnd.1
        have h2 : S.Pairwise fun a b : String × String => a.2 ≠ b.2 :=
          List.pairwise_map.mp hnd.2
        exact h1.and h2
      rw [postFilter]
      rw [List.pairwise_filterMap]
      refine hpS.imp ?_
      intro a b hab p hp q hq
      have hpa := postFilterFun_some df min_score a p hp
      have hqb := postFilterFun_some df min_score b q hq
      constructor
      · rw [hpa.2.2.1, hqb.2.2.1]; exact hab.1
      · rw [hpa.2.2.2, hqb.2.2.2]; exact hab.2

/-! ## Lemmas about the evaluator -/

theorem compute_metrics_gt_nil (predictions : List PredRow) (t : ℚ) :
    compute_metrics predictions [] t = none := by
  simp [compute_metrics, gtSponsors]

theorem gtSponsors_length_ne_zero (ground_truth : List GTRow) (h : ground_truth ≠ []) :
    (gtSponsors ground_truth).length ≠ 0 := by
  obtain ⟨g, gs, rfl⟩ := List.exists_cons_of_ne_nil h
  have hm : g.sponsor_name ∈ gtSponsors (g :: gs) :=
    List.mem_dedup.mpr (List.mem_map_of_mem _ (List.mem_cons_self _ _))
  intro h0
  rw [List.length_eq_zero] at h0
  rw [h0] at hm
  exact absurd hm (List.not_mem_nil _)

theorem compute_metrics_isSome (predictions : List PredRow) (ground_truth : List GTRow)
    (t : ℚ) (h : ground_truth ≠ []) : (compute_metrics predictions ground_truth t).isSome := by
  simp only [compute_metrics]
  rw [if_neg (gtSponsors_length_ne_zero ground_truth h)]
  rfl

theorem compute_metrics_at_k_gt_nil (predictions : List PredRow) (k : Nat) :
    compute_metrics_at_k predictions [] k = none := by
  rw [compute_metrics_at_k]
  exact compute_metrics_gt_nil _ _

theorem compute_metrics_at_k_isSome (predictions : List PredRow) (ground_truth : List GTRow)
    (k : Nat) (h : ground_truth ≠ []) :
    (compute_metrics_at_k predictions ground_truth k).isSome := by
  rw [compute_metrics_at_k]
  exact compute_metrics_isSome _ _ _ h

theorem mapM_option_isSome {α β : Type} (f : α → Option β) :
    ∀ (l : List α), (∀ a ∈ l, (f a).isSome) → (l.mapM f).isSome := by
  intro l
  induction l with
  | nil => intro _; rfl
  | cons a as ih =>
    intro h
    rcases hfa : f a with _ | b
    · have := h a (List.mem_cons_self _ _)
      rw [hfa] at this
      exact absurd this (by simp)
    · rcases hmt : as.mapM f with _ | bs
      · have := ih fun x hx => h x (List.mem_cons_of_mem _ hx)
        rw [hmt] at this
        exact absurd this (by simp)
      · rw [List.mapM_cons, hfa, hmt]
        rfl

theorem mapM_option_none {α β : Type} (f : α → Option β) (l : List α) (hl : l ≠ [])
    (hf : ∀ a ∈ l, f a = none) : l.mapM f = none := by
  obtain ⟨a, as, rfl⟩ := List.exists_cons_of_ne_nil hl
  rw [List.mapM_cons, hf a (List.mem_cons_self _ _)]
  rfl

theorem defaultThresholds_ne_nil : defaultThresholds ≠ [] := by
  have hl : defaultThresholds.length = 21 := by
    rw [defaultThresholds, List.length_map, List.length_range]
  intro h
  rw [h] at hl
  exact absurd hl (by simp)

theorem threshold_analysis_gt_nil (predictions : List PredRow) :
    threshold_analysis predictions [] = none := by
  rw [threshold_analysis]
  refine mapM_option_none _ _ defaultThresholds_ne_nil fun t _ => ?_
  rw [compute_metrics_gt_nil]
  rfl

theorem threshold_analysis_isSome (predictions : List PredRow) (ground_truth : List GTRow)
    (h : ground_truth ≠ []) : (threshold_analysis predictions ground_truth).isSome := by
  rw [threshold_analysis]
  refine mapM_option_isSome _ _ fun t _ => ?_
  rcases hcm : compute_metrics predictions ground_truth t with _ | m
  · have := compute_metrics_isSome predictions ground_truth t h
    rw [hcm] at this
    exact absurd this (by simp)
  · rfl

theorem compute_metrics_some_recall (predictions : List PredRow) (ground_truth : List GTRow)
    (t : ℚ) (m : EvaluationMetrics) (h : compute_metrics predictions ground_truth t = some m) :
    m.recall = recallRat predictions ground_truth t := by
  simp only [compute_metrics] at h
  split at h
  · exact absurd h (by simp)
  · simp only [Option.some.injEq] at h
    subst h
    rfl

theorem countP_flatten_map {α β : Type} (q : β → Bool) (F : α → List β) (l : List α) :
    ((l.map F).flatten).countP q = (l.map fun a => (F a).countP q).sum := by
  rw [List.countP_flatten, List.map_map]
  rfl

theorem sum_filter_mono_of_imp {α : Type} (w : α → ℕ) :
    ∀ (l : List α) (P Q : α → Bool), (∀ x ∈ l, P x = true → Q x = true) →
      ((l.filter P).map w).sum ≤ ((l.filter Q).map w).sum := by
  intro l
  induction l with
  | nil => intro P Q _; simp
  | cons x xs ih =>
    intro P Q h
    have hx := h x (List.mem_cons_self _ _)
    have ht := ih P Q fun y hy => h y (List.mem_cons_of_mem _ hy)
    rcases hP : P x with _ | _
    · rcases hQ : Q x with _ | _
      · simpa [hP, hQ] using ht
      · simp only [List.filter_cons, hP, hQ]
        simp only [Bool.false_eq_true, if_false, if_true, List.map_cons, List.sum_cons]
        exact ht.trans (Nat.le_add_left _ _)
    · have hQ := hx hP
      simp only [List.filter_cons, hP, hQ, if_true, List.map_cons, List.sum_cons]
      exact Nat.add_le_add_left ht _

theorem filterPreds_imp (predictions : List PredRow) (t1 t2 : ℚ) (h : t1 ≤ t2) (p : PredRow) :
    p ∈ filterPreds predictions t2 → p ∈ filterPreds predictions t1 := by
  intro hp
  rw [filterPreds, List.mem_filter] at hp ⊢
  exact ⟨hp.1, by
    have := of_decide_eq_true hp.2
    exact decide_eq_true (h.trans this)⟩

theorem tpCount_antitone (predictions : List PredRow) (ground_truth : List GTRow)
    (t1 t2 : ℚ) (h : t1 ≤ t2) :
    tpCount predictions ground_truth t2 ≤ tpCount predictions ground_truth t1 := by
  rw [tpCount, tpCount, joinedLabels, joinedLabels, countP_flatten_map, countP_flatten_map,
    filterPreds, filterPreds]
  exact sum_filter_mono_of_imp _ predictions _ _ fun x _ hx =>
    decide_eq_true ((of_decide_eq_true hx).trans' h)

theorem fnCount_monotone (predictions : List PredRow) (ground_truth : List GTRow)
    (t1 t2 : ℚ) (h : t1 ≤ t2) :
    fnCount predictions ground_truth t1 ≤ fnCount predictions ground_truth t2 := by
  rw [fnCount, fnCount, ← List.countP_eq_length_filter, ← List.countP_eq_length_filter]
  refine List.countP_mono_left fun g _ hg => ?_
  rw [Bool.not_eq_eq_eq_not, Bool.not_true, List.any_eq_false] at hg ⊢
  intro p hp
  exact hg p (filterPreds_imp predictions t1 t2 h p hp)

theorem recallRat_antitone (predictions : List PredRow) (ground_truth : List GTRow)
    (t1 t2 : ℚ) (h : t1 ≤ t2) :
    recallRat predictions ground_truth t2 ≤ recallRat predictions ground_truth t1 := by
  have htp := tpCount_antitone predictions ground_truth t1 t2 h
  have hfn := fnCount_monotone predictions ground_truth t1 t2 h
  simp only [recallRat]
  set a1 := tpCount predictions ground_truth t1 with ha1
  set a2 := tpCount predictions ground_truth t2 with ha2
  set b1 := fnCount predictions ground_truth t1 with hb1
  set b2 := fnCount predictions ground_truth t2 with hb2
  have hr1nonneg : (0 : ℚ) ≤ (if 0 < a1 + b1 then (a1 : ℚ) / ((a1 : ℚ) + (b1 : ℚ)) else 0) := by
    split
    · positivity
    · exact le_refl 0
  split
  · rename_i h2
    rcases Nat.eq_zero_or_pos a2 with hz | hpos
    · rw [hz]
      simpa using hr1nonneg
    · have ha12 : 0 < a1 := Nat.lt_of_lt_of_le hpos htp
      rw [if_pos (Nat.add_pos_left ha12 b1)]
      have hd2 : (0 : ℚ) < (a2 : ℚ) + (b2 : ℚ) := by
        have : (0 : ℚ) < ((a2 + b2 : ℕ) : ℚ) := by exact_mod_cast h2
        push_cast at this
        exact this
      have hd1 : (0 : ℚ) < (a1 : ℚ) + (b1 : ℚ) := by
        have : 0 < a1 + b1 := Nat.add_pos_left ha12 b1
        have h2 : (0 : ℚ) < ((a1 + b1 : ℕ) : ℚ) := by exact_mod_cast this
        push_cast at h2
        exact h2
      rw [div_le_div_iff₀ hd2 hd1]
      have hcross : a2 * b1 ≤ a1 * b2 :=
        Nat.mul_le_mul htp hfn
      have hc : ((a2 : ℚ)) * b1 ≤ (a1 : ℚ) * b2 := by exact_mod_cast hcross
      nlinarith [hc, mul_le_mul_of_nonneg_right (show (a2 : ℚ) ≤ (a1 : ℚ) by exact_mod_cast htp)
        (show (0 : ℚ) ≤ (a2 : ℚ) by positivity)]
  · exact hr1nonneg

/-! ## Lemmas about the scorer: dot products of unit vectors and rounding -/

theorem dot_cons (x y : ℚ) (xs ys : List ℚ) :
    dot (x :: xs) (y :: ys) = x * y + dot xs ys := by
  rw [dot, dot, List.zipWith_cons_cons, List.sum_cons]

theorem dot_self_nonneg : ∀ (v : List ℚ), 0 ≤ dot v v := by
  intro v
  induction v with
  | nil => exact le_refl 0
  | cons x xs ih =>
    rw [dot_cons]
    nlinarith [sq_nonneg x]

theorem dot_cross_bound (a b : ℚ) :
    ∀ (u v : List ℚ), u.length = v.length →
      2 * a * b * dot u v ≤ a ^ 2 * dot v v + b ^ 2 * dot u u := by
  intro u
  induction u with
  | nil =>
    intro v _
    have h1 : dot ([] : List ℚ) v = 0 := rfl
    have h2 : dot ([] : List ℚ) [] = 0 := rfl
    rw [h1]
    nlinarith [dot_self_nonneg v, sq_nonneg a, sq_nonneg b]
  | cons x xs ih =>
    intro v hlen
    cases v with
    | nil => simp at hlen
    | cons y ys =>
      have hlen' : xs.length = ys.length := by simpa using hlen
      have hih := ih ys hlen'
      rw [dot_cons, dot_cons, dot_cons]
      nlinarith [sq_nonneg (a * y - b * x)]

theorem dot_sq_le : ∀ (u v : List ℚ), u.length = v.length →
    (dot u v) ^ 2 ≤ dot u u * dot v v := by
  intro u
  induction u with
  | nil =>
    intro v _
    have h1 : dot ([] : List ℚ) v = 0 := rfl
    have h2 : dot ([] : List ℚ) [] = 0 := rfl
    rw [h1, h2, zero_mul]
    norm_num
  | cons x xs ih =>
    intro v hlen
    cases v with
    | nil => simp at hlen
    | cons y ys =>
      have hlen' : xs.length = ys.length := by simpa using hlen
      have hih := ih ys hlen'
      have hcross := dot_cross_bound x y xs ys hlen'
      rw [dot_cons, dot_cons, dot_cons]
      nlinarith [dot_self_nonneg xs, dot_self_nonneg ys]

theorem dot_unit_bounds (u v : List ℚ) (hlen : u.length = v.length)
    (hu : dot u u = 1) (hv : dot v v = 1) : -1 ≤ dot u v ∧ dot u v ≤ 1 := by
  have h := dot_sq_le u v hlen
  rw [hu, hv, one_mul] at h
  have := abs_le.mp ((sq_le_one_iff_abs_le_one (dot u v)).mp h)
  exact this

theorem roundHalfEven_le (x : ℚ) (c : ℤ) (h : x ≤ (c : ℚ)) : roundHalfEven x ≤ c := by
  have hfl : ⌊x⌋ ≤ c := by
    have h2 := Int.floor_le_floor h
    rwa [Int.floor_intCast] at h2
  have hfh : ¬(x - (⌊x⌋ : ℚ) < 1 / 2) → ⌊x⌋ + 1 ≤ c := by
    intro hge
    push_neg at hge
    have hxf : (⌊x⌋ : ℚ) + 1 / 2 ≤ x := by linarith
    have hlt : (⌊x⌋ : ℚ) < (c : ℚ) := by linarith
    have : ⌊x⌋ < c := by exact_mod_cast hlt
    omega
  simp only [roundHalfEven]
  by_cases h1 : x - (⌊x⌋ : ℚ) < 1 / 2
  · rw [if_pos h1]
    exact hfl
  · rw [if_neg h1]
    by_cases h2 : 1 / 2 < x - (⌊x⌋ : ℚ)
    · rw [if_pos h2]
      exact hfh h1
    · rw [if_neg h2]
      by_cases h3 : ⌊x⌋ % 2 = 0
      · rw [if_pos h3]
        exact hfl
      · rw [if_neg h3]
        exact hfh h1

theorem le_roundHalfEven (x : ℚ) (c : ℤ) (h : (c : ℚ) ≤ x) : c ≤ roundHalfEven x := by
  have hfl : c ≤ ⌊x⌋ := Int.le_floor.mpr h
  simp only [roundHalfEven]
  by_cases h1 : x - (⌊x⌋ : ℚ) < 1 / 2
  · rw [if_pos h1]
    exact hfl
  · rw [if_neg h1]
    by_cases h2 : 1 / 2 < x - (⌊x⌋ : ℚ)
    · rw [if_pos h2]
      omega
    · rw [if_neg h2]
      by_cases h3 : ⌊x⌋ % 2 = 0
      · rw [if_pos h3]
        exact hfl
      · rw [if_neg h3]
        omega

theorem round4_bounds (x : ℚ) (hl : -1 ≤ x) (hr : x ≤ 1) :
    -1 ≤ round4 x ∧ round4 x ≤ 1 := by
  have hu := roundHalfEven_le (x * 10000) 10000 (by push_cast; linarith)
  have hlo := le_roundHalfEven (x * 10000) (-10000) (by push_cast; linarith)
  rw [round4]
  constructor
  · rw [le_div_iff₀ (by norm_num : (0 : ℚ) < 10000)]
    have : ((-10000 : ℤ) : ℚ) ≤ (roundHalfEven (x * 10000) : ℚ) := by exact_mod_cast hlo
    push_cast at this ⊢
    linarith
  · rw [div_le_iff₀ (by norm_num : (0 : ℚ) < 10000)]
    have : ((roundHalfEven (x * 10000) : ℤ) : ℚ) ≤ ((10000 : ℤ) : ℚ) := by exact_mod_cast hu
    push_cast at this ⊢
    linarith

theorem score_pairs_mem (leftVec rightVec : String → List ℚ)
    (candidates : List (String × String)) (row : ScoredRow)
    (h : row ∈ score_pairs leftVec rightVec candidates) :
    ∃ lr ∈ candidates, row = scoreRow lr.1 lr.2 (dot (leftVec lr.1) (rightVec lr.2)) := by
  rw [score_pairs] at h
  have hm := (List.perm_insertionSort rowConfGE _).mem_iff.mp h
  rcases List.mem_map.mp hm with ⟨lr, hlr, he⟩
  exact ⟨lr, hlr, he.symm⟩

/-! ## Claim theorems -/

/-- C1: evaluation of the code at the failing input. On the sparse scored-pair
set A–X=0.9, A–Y=0.1, B–X=0.2 with `min_confidence = 0`, the Hungarian matcher
is forced by the penalty-completed square matrix to the full-cardinality
assignment {A→Y, B→X} (total 0.3) while the greedy matcher returns {A→X}
(total 0.9), so the comparator reports a strictly negative improvement and
`improvement_pct < 0`, contradicting the claimed optimality dominance. -/
theorem c1_hungarian_total_below_greedy_eval :
    (compare_matching_algorithms sparsePairs 0).greedy_total_score = 9 / 10 ∧
    (compare_matching_algorithms sparsePairs 0).hungarian_total_score = 3 / 10 ∧
    (compare_matching_algorithms sparsePairs 0).improvement < 0 ∧
    (compare_matching_algorithms sparsePairs 0).improvement_pct < 0 ∧
    greedy_matching sparsePairs 0 = [⟨"A", "X", 0.9⟩] ∧
    hungarian_matching sparsePairs 0 = [⟨"B", "X", 0.2⟩, ⟨"A", "Y", 0.1⟩] :=
  of_decide_eq_true (by with_unfolding_all rfl)

/-- C2 counterexample: two scored pairs produced by `score_pairs` with the
same stored confidence (0.85) but different statuses: the raw similarities
0.85 and 0.84996 classify as `approved` and `pending`, yet both round to a
stored confidence of 0.85; in particular a pair whose stored confidence is
at least `approve_at_or_above` is not `approved`. -/
theorem c2_equal_confidence_unequal_status :
    score_pairs cexLeftVec cexRightVec [("A", "X"), ("A", "Y")] =
      [⟨"A", "X", 0.85, Status.approved⟩, ⟨"A", "Y", 0.85, Status.pending⟩] ∧
    (⟨"A", "X", 0.85, Status.approved⟩ : ScoredRow).confidence =
      (⟨"A", "Y", 0.85, Status.pending⟩ : ScoredRow).confidence ∧
    (⟨"A", "X", 0.85, Status.approved⟩ : ScoredRow).status ≠
      (⟨"A", "Y", 0.85, Status.pending⟩ : ScoredRow).status ∧
    CONFIDENCE_AUTO_APPROVE ≤ (⟨"A", "Y", 0.85, Status.pending⟩ : ScoredRow).confidence ∧
    (⟨"A", "Y", 0.85, Status.pending⟩ : ScoredRow).status ≠ Status.approved :=
  of_decide_eq_true (by with_unfolding_all rfl)

/-- C2 amended: the status of every scored pair produced by `score_pairs` is
a pure deterministic function of the pair's raw (unrounded) similarity and
the two thresholds — `similarity ≥ 0.85 → approved`,
`similarity < 0.65 → rejected`, otherwise `pending` — but not of the stored
(rounded) confidence field. -/
theorem c2_status_determined_by_raw_similarity :
    (∀ (leftVec rightVec : String → List ℚ) (candidates : List (String × String))
      (row : ScoredRow), row ∈ score_pairs leftVec rightVec candidates →
        row.status = classify (dot (leftVec row.sponsor_name) (rightVec row.ticker))) ∧
    (∀ s : ℚ, CONFIDENCE_AUTO_APPROVE ≤ s → classify s = Status.approved) ∧
    (∀ s : ℚ, s < CONFIDENCE_AUTO_REJECT → classify s = Status.rejected) ∧
    (∀ s : ℚ, CONFIDENCE_AUTO_REJECT ≤ s → s < CONFIDENCE_AUTO_APPROVE →
      classify s = Status.pending) := by
  refine ⟨?_, ?_, ?_, ?_⟩
  · intro leftVec rightVec candidates row h
    rcases score_pairs_mem leftVec rightVec candidates row h with ⟨lr, _, rfl⟩
    rfl
  · intro s hs
    rw [classify, if_pos hs]
  · intro s hs
    have hna : ¬CONFIDENCE_AUTO_APPROVE ≤ s := by
      rw [CONFIDENCE_AUTO_APPROVE]
      rw [CONFIDENCE_AUTO_REJECT] at hs
      intro hc
      norm_num at hc hs
      linarith
    rw [classify, if_neg hna, if_pos hs]
  · intro s hs1 hs2
    have hna : ¬CONFIDENCE_AUTO_APPROVE ≤ s := not_le.mpr hs2
    have hnr : ¬s < CONFIDENCE_AUTO_REJECT := not_lt.mpr hs1
    rw [classify, if_neg hna, if_neg hnr]

/-- C2 witness: the amended theorem applied to a concrete scored pair. -/
theorem c2_status_determined_by_raw_similarity_witness :
    (⟨"A", "X", 1, Status.approved⟩ : ScoredRow).status =
      classify (dot ((fun _ => [(1 : ℚ)]) "A") ((fun _ => [(1 : ℚ)]) "X")) ∧
    classify 1 = Status.approved := by
  refine ⟨c2_status_determined_by_raw_similarity.1 (fun _ => [1]) (fun _ => [1])
    [("A", "X")] _ ?_, c2_status_determined_by_raw_similarity.2.1 1 ?_⟩
  · exact of_decide_eq_true (by with_unfolding_all rfl)
  · rw [CONFIDENCE_AUTO_APPROVE]
    norm_num

/-- C3 counterexample: with unit-norm embedding vectors `[1, 0]` and
`[-1, 0]`, `score_pairs` stores a confidence of -1, outside `[0, 1]`. -/
theorem c3_unit_vectors_negative_confidence :
    dot (unitLeftVec "A") (unitLeftVec "A") = 1 ∧
    dot (unitRightVec "X") (unitRightVec "X") = 1 ∧
    (unitLeftVec "A").length = (unitRightVec "X").length ∧
    score_pairs unitLeftVec unitRightVec [("A", "X")] =
      [⟨"A", "X", -1, Status.rejected⟩] ∧
    ¬(0 ≤ (⟨"A", "X", -1, Status.rejected⟩ : ScoredRow).confidence) :=
  of_decide_eq_true (by with_unfolding_all rfl)

/-- C3 amended: under the interface precondition that the injected embedding
capability returns unit-norm vectors of a fixed dimensionality, every scored
pair produced by `score_pairs` has its confidence in the closed interval
`[-1, 1]` (not `[0, 1]`: cosine similarity of unit vectors can be negative). -/
theorem c3_confidence_in_signed_unit_interval
    (leftVec rightVec : String → List ℚ) (candidates : List (String × String))
    (hdim : ∀ l r, (leftVec l).length = (rightVec r).length)
    (hunitL : ∀ s, dot (leftVec s) (leftVec s) = 1)
    (hunitR : ∀ s, dot (rightVec s) (rightVec s) = 1)
    (row : ScoredRow) (h : row ∈ score_pairs leftVec rightVec candidates) :
    -1 ≤ row.confidence ∧ row.confidence ≤ 1 := by
  rcases score_pairs_mem leftVec rightVec candidates row h with ⟨lr, _, rfl⟩
  have hb := dot_unit_bounds (leftVec lr.1) (rightVec lr.2) (hdim lr.1 lr.2)
    (hunitL lr.1) (hunitR lr.2)
  exact round4_bounds _ hb.1 hb.2

/-- C3 witness: the amended theorem applied to a concrete embedding. -/
theorem c3_confidence_in_signed_unit_interval_witness :
    -1 ≤ (⟨"A", "X", 1, Status.approved⟩ : ScoredRow).confidence ∧
    (⟨"A", "X", 1, Status.approved⟩ : ScoredRow).confidence ≤ 1 :=
  c3_confidence_in_signed_unit_interval (fun _ => [1]) (fun _ => [1]) [("A", "X")]
    (fun _ _ => rfl)
    (fun _ => of_decide_eq_true (by with_unfolding_all rfl))
    (fun _ => of_decide_eq_true (by with_unfolding_all rfl))
    ⟨"A", "X", 1, Status.approved⟩
    (of_decide_eq_true (by with_unfolding_all rfl))

/-- C4: on the four-pair worked example with `min_confidence = 0`, greedy
returns exactly {A→X, B→Y} with total confidence 1.60 and the Hungarian
matcher returns exactly {A→Y, B→X} with total confidence 1.73. -/
theorem c4_worked_example :
    greedy_matching exPairs 0 = [⟨"A", "X", 0.90⟩, ⟨"B", "Y", 0.70⟩] ∧
    totalScore (greedy_matching exPairs 0) = 1.60 ∧
    hungarian_matching exPairs 0 = [⟨"B", "X", 0.88⟩, ⟨"A", "Y", 0.85⟩] ∧
    totalScore (hungarian_matching exPairs 0) = 1.73 :=
  of_decide_eq_true (by with_unfolding_all rfl)

/-- C5: `compute_metrics` on the worked evaluation example returns TP=2,
FP=1 (the unlabeled pair (E,W) counted against precision), FN=0,
precision=2/3, recall=1, F1=0.8. -/
theorem c5_evaluation_worked_example :
    compute_metrics evalPreds evalGT 0 =
      some { precision := 2 / 3, «recall» := 1, f1 := 0.8, true_positives := 2,
             false_positives := 1, false_negatives := 0, true_negatives := 0,
             coverage := 2 / 3, total_predictions := 3, total_ground_truth := 3 } :=
  of_decide_eq_true (by with_unfolding_all rfl)

/-- C6: for a fixed predictions table and a fixed non-empty ground-truth
table, raising `min_confidence` never increases the recall returned by
`compute_metrics`. -/
theorem c6_recall_antitone_in_threshold (predictions : List PredRow)
    (ground_truth : List GTRow) (t1 t2 : ℚ) (m1 m2 : EvaluationMetrics)
    (hgt : ground_truth ≠ []) (h12 : t1 ≤ t2)
    (h1 : compute_metrics predictions ground_truth t1 = some m1)
    (h2 : compute_metrics predictions ground_truth t2 = some m2) :
    m2.recall ≤ m1.recall := by
  rw [compute_metrics_some_recall _ _ _ _ h1, compute_metrics_some_recall _ _ _ _ h2]
  exact recallRat_antitone _ _ _ _ h12

/-- C6 witness: the theorem applied at thresholds 0 ≤ 1 on a one-row table. -/
theorem c6_recall_antitone_in_threshold_witness :
    ({ precision := 1, «recall» := 1, f1 := 1, true_positives := 1, false_positives := 0,
       false_negatives := 0, true_negatives := 0, coverage := 1, total_predictions := 1,
       total_ground_truth := 1 } : EvaluationMetrics).recall ≤
      ({ precision := 1, «recall» := 1, f1 := 1, true_positives := 1, false_positives := 0,
         false_negatives := 0, true_negatives := 0, coverage := 1, total_predictions := 1,
         total_ground_truth := 1 } : EvaluationMetrics).recall :=
  c6_recall_antitone_in_threshold [⟨"A", "X", 1⟩] [⟨"A", "X", "correct"⟩] 0 1 _ _
    (of_decide_eq_true (by with_unfolding_all rfl))
    (of_decide_eq_true (by with_unfolding_all rfl))
    (of_decide_eq_true (by with_unfolding_all rfl))
    (of_decide_eq_true (by with_unfolding_all rfl))

/-- C7: every row returned by `hungarian_matching` is a row of the
`min_confidence`-filtered input pair set and meets the threshold; no
penalty/filler assignment survives the post-solve membership filter. -/
theorem c7_hungarian_returns_only_real_candidates (pairs : List Pair) (min_score : ℚ)
    (p : Pair) (h : p ∈ hungarian_matching pairs min_score) :
    p ∈ filterPairs pairs min_score ∧ min_score ≤ p.conf :=
  hungarian_matching_mem pairs min_score p h

/-- C7 witness: the theorem applied to a one-pair input. -/
theorem c7_hungarian_returns_only_real_candidates_witness :
    (⟨"A", "X", 1⟩ : Pair) ∈ filterPairs [⟨"A", "X", 1⟩] 0 ∧ (0 : ℚ) ≤ (⟨"A", "X", 1⟩ : Pair).conf :=
  c7_hungarian_returns_only_real_candidates [⟨"A", "X", 1⟩] 0 ⟨"A", "X", 1⟩
    (of_decide_eq_true (by with_unfolding_all rfl))

/-- C8: for both matcher strategies and all inputs, the returned match never
repeats a left id or a right id (partial-injection invariant). -/
theorem c8_match_partial_injection (pairs : List Pair) (min_score : ℚ) :
    OneToOne (greedy_matching pairs min_score) ∧
      OneToOne (hungarian_matching pairs min_score) :=
  ⟨greedy_matching_one_to_one pairs min_score, hungarian_matching_one_to_one pairs min_score⟩

/-- C9: the coverage computation of `compute_metrics` divides by the number
of distinct ground-truth sponsors with no zero guard, so the empty
ground-truth table is the one input on which `compute_metrics` (and hence
`compute_metrics_at_k` and `threshold_analysis`) fails, while precision,
recall and F1 are guarded and never divide by zero. -/
theorem c9_coverage_division_by_zero :
    (∀ (predictions : List PredRow) (t : ℚ), compute_metrics predictions [] t = none) ∧
    (∀ (predictions : List PredRow) (ground_truth : List GTRow) (t : ℚ),
      ground_truth ≠ [] → (compute_metrics predictions ground_truth t).isSome) ∧
    (∀ (predictions : List PredRow) (k : Nat), compute_metrics_at_k predictions [] k = none) ∧
    (∀ (predictions : List PredRow), threshold_analysis predictions [] = none) ∧
    (∀ (predictions : List PredRow) (ground_truth : List GTRow) (k : Nat),
      ground_truth ≠ [] → (compute_metrics_at_k predictions ground_truth k).isSome) ∧
    (∀ (predictions : List PredRow) (ground_truth : List GTRow),
      ground_truth ≠ [] → (threshold_analysis predictions ground_truth).isSome) :=
  ⟨compute_metrics_gt_nil,
   compute_metrics_isSome,
   compute_metrics_at_k_gt_nil,
   threshold_analysis_gt_nil,
   compute_metrics_at_k_isSome,
   threshold_analysis_isSome⟩

/-- C9 witness: the theorem applied to concrete empty and non-empty tables. -/
theorem c9_coverage_division_by_zero_witness :
    compute_metrics [] [] 0 = none ∧
    (compute_metrics [] [⟨"A", "X", "correct"⟩] 0).isSome ∧
    compute_metrics_at_k [] [] 1 = none ∧
    threshold_analysis [] [] = none ∧
    (compute_metrics_at_k [] [⟨"A", "X", "correct"⟩] 1).isSome ∧
    (threshold_analysis [] [⟨"A", "X", "correct"⟩]).isSome :=
  ⟨c9_coverage_division_by_zero.1 [] 0,
   c9_coverage_division_by_zero.2.1 [] [⟨"A", "X", "correct"⟩] 0 (by decide),
   c9_coverage_division_by_zero.2.2.1 [] 1,
   c9_coverage_division_by_zero.2.2.2.1 [],
   c9_coverage_division_by_zero.2.2.2.2.1 [] [⟨"A", "X", "correct"⟩] 1 (by decide),
   c9_coverage_division_by_zero.2.2.2.2.2 [] [⟨"A", "X", "correct"⟩] (by decide)⟩

/-- C10: the greedy result is a maximal matching of the filtered input: any
filtered pair not selected shares its left or right id with a selected pair. -/
theorem c10_greedy_result_maximal (pairs : List Pair) (min_score : ℚ) (p : Pair)
    (hp : p ∈ filterPairs pairs min_score) (hnp : p ∉ greedy_matching pairs min_score) :
    ∃ q ∈ greedy_matching pairs min_score, q.left = p.left ∨ q.right = p.right := by
  rw [greedy_matching] at hnp ⊢
  by_cases he : (filterPairs pairs min_score).isEmpty
  · rw [List.isEmpty_iff] at he
    rw [he] at hp
    exact absurd hp (List.not_mem_nil p)
  · rw [if_neg he] at hnp ⊢
    have hmem : p ∈ sortByConfDesc (filterPairs pairs min_score) :=
      (List.perm_insertionSort confGE _).mem_iff.mpr hp
    rcases greedyGo_maximal _ [] [] p hmem hnp with hml | hex
    · rcases hml with hl | hr
      · exact absurd hl (List.not_mem_nil _)
      · exact absurd hr (List.not_mem_nil _)
    · exact hex

/-- C10 witness: the theorem applied to a two-pair input where the lower
pair is blocked on its left id. -/
theorem c10_greedy_result_maximal_witness :
    ∃ q ∈ greedy_matching [⟨"A", "X", 1⟩, ⟨"A", "Y", 0⟩] 0,
      q.left = (⟨"A", "Y", 0⟩ : Pair).left ∨ q.right = (⟨"A", "Y", 0⟩ : Pair).right :=
  c10_greedy_result_maximal [⟨"A", "X", 1⟩, ⟨"A", "Y", 0⟩] 0 ⟨"A", "Y", 0⟩
    (of_decide_eq_true (by with_unfolding_all rfl))
    (of_decide_eq_true (by with_unfolding_all rfl))

end EntityResolution
